import Mathlib

/-!
Verification of the laya-resource-parser asset dependency resolver.

This file gives a shallow embedding, in Lean 4, of the core components of the
tuiuq/laya-resource-parser repository:

* string-level helpers (`normalizePath`, `endsWithAny`, `looksLikeAssetPath`,
  the `FILE_PATH_PATTERN` regular expression, node-style `dirname`/`join`);
* the generic data-tree walker `traverseData` (src/utils/traverseData.ts);
* the `FileProcessor` recursion (`parseHierarchyFile`, `readFileContent`,
  `isParsable`, `isTopLevelHierarchy`) from src/laya/FileProcessor.ts and the
  equivalent legacy `ResourceManager` copy;
* the modular core `ResourceManager` (processFiles / processFile /
  processReferences / isTopLevelFile) together with the `JsonProcessor`
  reference extraction (`findReferences` / `isResourcePath`);
* the `DownloadManager` request-coalescing discipline (downloadFile /
  createDownloadTask), modelled as a labelled transition system whose atomic
  steps are exactly the synchronous sections of the JavaScript code.

Recursive procedures are embedded with an explicit fuel parameter so that all
definitions are plainly structural and computable; separate theorems show that
sufficient fuel exists (termination) and that results are stable once the fuel
is sufficient.
-/

namespace Laya

/-! ## JavaScript string helpers -/

/-- Character class of the JavaScript regular-expression escape `\s`
(whitespace), as used by `path.replace(/\s/g, "_")` in
`PathResolver.normalizePath` and `ResourceManager.getLocalFilePath`. -/
def isWhitespaceJS (c : Char) : Bool :=
  c = ' ' || c = '\t' || c = '\n' || c = '\r' || c.val = 0x0b || c.val = 0x0c ||
  c.val = 0xa0 || c.val = 0x1680 || (0x2000 ≤ c.val && c.val ≤ 0x200a) ||
  c.val = 0x2028 || c.val = 0x2029 || c.val = 0x202f || c.val = 0x205f ||
  c.val = 0x3000 || c.val = 0xfeff

/-- One character of `path.replace(/\s/g, "_")`: a whitespace character is
replaced by an underscore, every other character is kept. Because `\s`
matches a single character (not a run), the replacement is a per-character
map. -/
def normChar (c : Char) : Char :=
  if isWhitespaceJS c then '_' else c

/-- Embedding of `PathResolver.normalizePath` (src/resolvers/PathResolver.ts):
`path.replace(/\s/g, "_")`. The same expression appears inline in the legacy
`ResourceManager.getLocalFilePath`. -/
def normalizePath (s : String) : String :=
  ⟨s.data.map normChar⟩

/-- Kernel-computable `String.endsWith`: suffix test on the character lists. -/
def strEndsWith (s sfx : String) : Bool :=
  sfx.data.reverse.isPrefixOf s.data.reverse

/-- Kernel-computable `String.startsWith`: prefix test on the character
lists. -/
def strStartsWith (s pre : String) : Bool :=
  pre.data.isPrefixOf s.data

/-- Kernel-computable `String.includes(c)` for a single character. -/
def strHasChar (s : String) (c : Char) : Bool :=
  s.data.contains c

/-- Embedding of the private helper `endsWithAny(path, suffixes)` shared by
`FileProcessor`, the legacy `ResourceManager` and `PathResolver`: scans the
suffix list and returns true on the first match. -/
def endsWithAny (path : String) (suffixes : List String) : Bool :=
  suffixes.any (fun suffix => strEndsWith path suffix)

/-- Embedding of `looksLikeAssetPath` (src/utils/looksLikeAssetPath.ts):
nonempty, does not start with `http` or `data:`, contains both `/` and `.`,
and contains no `{` or `}`. -/
def looksLikeAssetPath (value : String) : Bool :=
  !(value = "") &&
  !(strStartsWith value "http") &&
  !(strStartsWith value "data:") &&
  strHasChar value '/' &&
  strHasChar value '.' &&
  !(strHasChar value '{' || strHasChar value '}')

/-- ASCII alphanumeric, the `[A-Za-z0-9]` class of `FILE_PATH_PATTERN`. -/
def isAlnumJS (c : Char) : Bool :=
  ('a' ≤ c && c ≤ 'z') || ('A' ≤ c && c ≤ 'Z') || ('0' ≤ c && c ≤ '9')

/-- The `\w` class: ASCII alphanumeric or underscore. -/
def isWordCharJS (c : Char) : Bool :=
  isAlnumJS c || c = '_'

/-- The dot-free part of the bracket class of `FILE_PATH_PATTERN` (word
characters, dot, slash, hyphen, whitespace): word characters, `/`, `-` and
whitespace. Dots are treated separately (see `jsFilePathPattern`). -/
def classCharJS (c : Char) : Bool :=
  isWordCharJS c || c = '/' || c = '-' || isWhitespaceJS c

/-- An extension component `[A-Za-z0-9]{2,5}` of `FILE_PATH_PATTERN`. -/
def isExtComp (s : String) : Bool :=
  2 ≤ s.length && s.length ≤ 5 && s.data.all isAlnumJS

/-- Embedding of `FILE_PATH_PATTERN` (src/constants.ts): the anchored
case-insensitive regular expression whose body is a star of the bracket class
(word characters, dot, slash, hyphen, whitespace), then a literal dot and a
2-5 character alphanumeric extension, then optionally a second literal dot and
2-5 character alphanumeric extension. Because the extension components contain no dot, the dot
consumed by `\.` before the final extension is necessarily the last dot of the
string, and because `.` itself belongs to the leading bracket class, the
optional second-extension alternative is subsumed by the first: the pattern
matches exactly when the string has at least one dot, the component after the
last dot is a 2-5 letter alphanumeric extension, and every character before it
lies in the bracket class (the case-insensitive flag is irrelevant since every
class is closed under case). -/
def splitOnCharAux (sep : Char) : List Char → List Char → List String
  | [], acc => [⟨acc.reverse⟩]
  | c :: rest, acc =>
    if c = sep then ⟨acc.reverse⟩ :: splitOnCharAux sep rest []
    else splitOnCharAux sep rest (c :: acc)

/-- Kernel-computable `String.splitOn` for a single-character separator. -/
def splitOnChar (sep : Char) (s : String) : List String :=
  splitOnCharAux sep s.data []

/-- Kernel-computable `String.intercalate` for a single-character
separator. -/
def strJoin (sep : Char) : List String → String
  | [] => ""
  | [s] => s
  | s :: rest => s ++ ⟨[sep]⟩ ++ strJoin sep rest

def jsFilePathPattern (s : String) : Bool :=
  match (splitOnChar '.' s).reverse with
  | [] => false
  | ext :: rest =>
    !rest.isEmpty && isExtComp ext &&
      rest.all (fun comp => comp.data.all classCharJS)

/-! ## Node path helpers (`dirname`, `join`), for relative POSIX paths -/

/-- Segment normalization of node's `path.join`: empty and `.` segments are
dropped, `..` pops the previous real segment (and is kept when there is
nothing left to pop). -/
def joinSegs : List String → List String → List String
  | [], acc => acc.reverse
  | s :: rest, acc =>
    if s = "" || s = "." then joinSegs rest acc
    else if s = ".." then
      match acc with
      | [] => joinSegs rest [".."]
      | t :: acc' =>
        if t = ".." then joinSegs rest (".." :: t :: acc')
        else joinSegs rest acc'
    else joinSegs rest (s :: acc)

/-- Embedding of node's `path.join(a, b)` for the relative POSIX paths this
repository manipulates. -/
def nodeJoin (a b : String) : String :=
  match joinSegs (splitOnChar '/' a ++ splitOnChar '/' b) [] with
  | [] => "."
  | segs => strJoin '/' segs

/-- Embedding of node's `path.dirname` for the relative POSIX paths this
repository manipulates: everything before the last `/`, and `.` when there is
no `/`. -/
def nodeDirname (p : String) : String :=
  match (splitOnChar '/' p).dropLast with
  | [] => "."
  | parents => strJoin '/' parents

/-! ## JSON data trees and `traverseData` -/

/-- A path component of `TraversePath`: an array index or an object key. -/
inductive PathElem where
  | idx (i : Nat)
  | key (k : String)
deriving DecidableEq, Repr

/-- Already-materialized JSON data, as produced by `JSON.parse`. -/
inductive Json where
  | null
  | bool (b : Bool)
  | num (n : Int)
  | str (s : String)
  | arr (elems : List Json)
  | obj (entries : List (String × Json))
deriving Repr

/-- A callback invocation of `traverseData`: the traversal path, the key and
the string value handed to the callback. -/
structure Triple where
  path : List PathElem
  key : String
  value : String
deriving DecidableEq, Repr

mutual

/-- Embedding of `traverseData` (src/utils/traverseData.ts), collecting the
list of `(path, key, value)` callback invocations in order. The structure
mirrors the source exactly: `null`/`undefined` data is skipped; a string
datum fires the callback with key `""` unless the filter accepts
`(path, "", data)`; arrays recurse element-wise with the index appended to
the path and no filter check of their own; for an object entry the filter is
consulted on `(nextPath, key, value)` and, when it returns true, the entry
is skipped entirely (`continue`) - otherwise a string value fires the
callback and any other value is recursed into. Non-string scalars fall
through every branch and contribute nothing. -/
def traverseData (flt : List PathElem → String → Json → Bool) :
    Json → List PathElem → List Triple
  | .null, _ => []
  | .bool _, _ => []
  | .num _, _ => []
  | .str s, path => if flt path "" (.str s) then [] else [⟨path, "", s⟩]
  | .arr elems, path => traverseArr flt elems 0 path
  | .obj entries, path => traverseObj flt entries path

/-- The `for` loop of `traverseData` over an array, `i` being the current
index. -/
def traverseArr (flt : List PathElem → String → Json → Bool) :
    List Json → Nat → List PathElem → List Triple
  | [], _, _ => []
  | x :: xs, i, path =>
    traverseData flt x (path ++ [.idx i]) ++ traverseArr flt xs (i + 1) path

/-- The `for` loop of `traverseData` over `Object.entries`. -/
def traverseObj (flt : List PathElem → String → Json → Bool) :
    List (String × Json) → List PathElem → List Triple
  | [], _ => []
  | (k, v) :: rest, path =>
    (if flt (path ++ [.key k]) k v then []
     else
       match v with
       | .str s => [⟨path ++ [.key k], k, s⟩]
       | _ => traverseData flt v (path ++ [.key k])) ++
    traverseObj flt rest path

end

/-- The filter passed by `FileProcessor.parseHierarchyFile` (and by the legacy
`ResourceManager.parseHierarchyFile`): `filter(_, key) { return key === "name" }`. -/
def nameFilter : List PathElem → String → Json → Bool :=
  fun _ key _ => key == "name"

/-! ## FileProcessor (src/laya/FileProcessor.ts) and its legacy copy -/

/-- The slice of `IConfig` that `FileProcessor` consults, with the pattern as
a boolean predicate standing for `RegExp.test`. -/
structure LConfig where
  topLevelHierarchyExtensions : List String
  parsableHierarchyExtensions : List String
  ignoredHierarchyExtensions : List String
  filePathPattern : String → Bool

/-- The defaults of `ConfigManager` (src/constants.ts): `TOP_LEVEL_HIERARCHY_EXTENSIONS`,
`PARSABLE_HIERARCHY_EXTENSIONS`, `IGNORED_HIERARCHY_SUFFIXES`,
`FILE_PATH_PATTERN`. -/
def defaultLConfig : LConfig where
  topLevelHierarchyExtensions := [".ls", ".lh"]
  parsableHierarchyExtensions := [".ls", ".lh", ".lmat", ".ltc"]
  ignoredHierarchyExtensions := [".ltcb.ls", ".lanit.ls"]
  filePathPattern := jsFilePathPattern

/-- Embedding of `FileProcessor.isParsable`: an ignored suffix wins, otherwise
the parsable extensions are consulted. -/
def isParsable (cfg : LConfig) (path : String) : Bool :=
  if endsWithAny path cfg.ignoredHierarchyExtensions then false
  else endsWithAny path cfg.parsableHierarchyExtensions

/-- Embedding of `FileProcessor.isTopLevelHierarchy` (identical logic in the
legacy `ResourceManager.isTopLevelHierarchy`): an ignored suffix wins,
otherwise the top-level extensions are consulted. -/
def isTopLevelHierarchy (cfg : LConfig) (path : String) : Bool :=
  if endsWithAny path cfg.ignoredHierarchyExtensions then false
  else endsWithAny path cfg.topLevelHierarchyExtensions

/-- The reference-extraction step of `FileProcessor.parseHierarchyFile`: walk
the parsed JSON with the `name` filter and, for every string value the
callback receives, keep it when `looksLikeAssetPath(value)` and
`config.filePathPattern.test(value)` hold, resolved against the directory of
the current file (`join(dirname(filePath), value)`), in traversal order. -/
def extractRefs (cfg : LConfig) (filePath : String) (j : Json) : List String :=
  let dir := nodeDirname filePath
  (traverseData nameFilter j []).filterMap fun t =>
    if looksLikeAssetPath t.value && cfg.filePathPattern t.value then
      some (nodeJoin dir t.value)
    else none

/-- The mutable fields of `FileProcessor`: `processedFiles` and `fileList`.
Both are JavaScript `Set<string>`, i.e. insertion-ordered duplicate-free
collections; they are modelled as lists with set-insert. -/
structure FPState where
  processedFiles : List String
  fileList : List String
deriving DecidableEq, Repr

/-- JavaScript `Set.add`: appends the element unless it is already present. -/
def setAdd (l : List String) (x : String) : List String :=
  if x ∈ l then l else l ++ [x]

/-- Association-list lookup, playing the role of the file system / remote
server map. -/
def lookupFs {α : Type} : List (String × α) → String → Option α
  | [], _ => none
  | (k, v) :: rest, p => if k = p then some v else lookupFs rest p

/-- One resolve call's world: each obtainable path (present locally or
downloadable) is mapped to the outcome of reading-and-parsing its content -
`.ok json` when some stage of `readFileContent` yields JSON, `.error ()` when
all three stages fail. Paths absent from the list are neither present locally
nor downloadable (`downloadFile` rejects, e.g. HTTP 404). -/
abbrev LFs := List (String × Except Unit Json)

/-- Embedding of `FileProcessor.parseHierarchyFile(filePath, depth)`
(src/laya/FileProcessor.ts, identical control flow in the legacy
`ResourceManager.parseHierarchyFile`). Result `none` means the fuel ran out;
`some (st, true)` is normal completion; `some (st, false)` means the call
threw (download failure or `readFileContent` failure) after having mutated
the state to `st` - state mutations survive the exception because
`processedFiles` and `fileList` are instance fields. Steps, in source order:
(1) skip already-processed paths; (2) add the path to `processedFiles` and
`fileList`; (3) ensure a local copy, downloading if needed - an unobtainable
path throws; (4) non-parsable file types return successfully without
traversal; (5) parse content (`readFileContent`) - total failure throws;
(6) recurse sequentially into each extracted reference at `depth+1`; a child
exception propagates and aborts the remaining references. The `depth`
argument of the source only feeds log indentation and is omitted. -/
def parseHierarchyFile (cfg : LConfig) (fs : LFs) :
    Nat → String → FPState → Option (FPState × Bool)
  | 0, _, _ => none
  | fuel + 1, filePath, st =>
    if filePath ∈ st.processedFiles then some (st, true)
    else
      let st1 : FPState :=
        ⟨setAdd st.processedFiles filePath, setAdd st.fileList filePath⟩
      match lookupFs fs filePath with
      | none => some (st1, false)
      | some content =>
        if !(isParsable cfg filePath) then some (st1, true)
        else
          match content with
          | .error _ => some (st1, false)
          | .ok json =>
            (extractRefs cfg filePath json).foldl
              (fun acc ref =>
                match acc with
                | none => none
                | some (st', false) => some (st', false)
                | some (st', true) => parseHierarchyFile cfg fs fuel ref st')
              (some (st1, true))

/-- The reference loop of `parseHierarchyFile` as a standalone function: the
sequential `await this.parseHierarchyFile(referencedPath, depth + 1)` calls
made by the `traverseData` callback, with exception propagation. -/
def parseRefs (cfg : LConfig) (fs : LFs) (fuel : Nat) (refs : List String)
    (st : FPState) : Option (FPState × Bool) :=
  refs.foldl
    (fun acc ref =>
      match acc with
      | none => none
      | some (st', false) => some (st', false)
      | some (st', true) => parseHierarchyFile cfg fs fuel ref st')
    (some (st, true))

/-- Embedding of the entry loop of `ResourceManager.parse`
(src/laya/ResourceManager.ts): every collected top-level file is handed to
`fileProcessor.parseHierarchyFile(filePath, 0)`; a rejected task makes
`parse()` reject (flag `false`) while the remaining scheduled tasks still
run against the shared `FileProcessor` state. -/
def parseEntries (cfg : LConfig) (fs : LFs) (fuel : Nat) :
    List String → FPState → Option (FPState × Bool)
  | [], st => some (st, true)
  | e :: es, st =>
    match parseHierarchyFile cfg fs fuel e st with
    | none => none
    | some (st', ok) =>
      match parseEntries cfg fs fuel es st' with
      | none => none
      | some (st'', ok') => some (st'', ok && ok')

/-- One full resolve: run every entry file against the initially empty
`FileProcessor` state. -/
def resolve (cfg : LConfig) (fs : LFs) (entries : List String) (fuel : Nat) :
    Option (FPState × Bool) :=
  parseEntries cfg fs fuel entries ⟨[], []⟩

/-! ## readFileContent (src/laya/FileProcessor.ts, lines 86-133) -/

/-- A single failure cause inside `readFileContent`: the local read failing,
the local file being empty, `JSON.parse` failing, or the re-download
failing. -/
inductive StageErr where
  | readError
  | emptyFile
  | parseError
  | downloadError
deriving DecidableEq, Repr

/-- Stage (i) of `readFileContent`: `readJSON(localFilePath)` - read the
local file as UTF-8 (fails when it is unreadable) and `JSON.parse` it.
`parse` abstracts `JSON.parse` (`none` = throws); `localC` is the decoded
local file content (`none` = unreadable/absent). -/
def stageReadJSON (parse : String → Option Json) (localC : Option String) :
    Except StageErr Json :=
  match localC with
  | none => .error .readError
  | some text =>
    match parse text with
    | some j => .ok j
    | none => .error .parseError

/-- Stage (ii) of `readFileContent`: `readArrayBuffer(localFilePath)`, an
explicit empty-file check, UTF-8 decoding, `JSON.parse`. It reads the same
local file as stage (i). -/
def stageRawBuffer (parse : String → Option Json) (localC : Option String) :
    Except StageErr Json :=
  match localC with
  | none => .error .readError
  | some text =>
    if text = "" then .error .emptyFile
    else
      match parse text with
      | some j => .ok j
      | none => .error .parseError

/-- Stage (iii) of `readFileContent`: `downloadManager.downloadFile(filePath)`
followed by `JSON.parse` of the downloaded bytes; `remoteC` is the decoded
remote content (`none` = download rejects). -/
def stageRedownload (parse : String → Option Json) (remoteC : Option String) :
    Except StageErr Json :=
  match remoteC with
  | none => .error .downloadError
  | some text =>
    match parse text with
    | some j => .ok j
    | none => .error .parseError

/-- Embedding of `FileProcessor.readFileContent`: try stage (i); on failure
try stage (ii); on failure try stage (iii); if all three fail, fail with the
composite error record carrying all three causes (the source logs
`jsonError`, `bufferError` and `downloadError` together at this point and
throws). -/
def readFileContent (parse : String → Option Json) (localC remoteC : Option String) :
    Except (StageErr × StageErr × StageErr) Json :=
  match stageReadJSON parse localC with
  | .ok j => .ok j
  | .error e1 =>
    match stageRawBuffer parse localC with
    | .ok j => .ok j
    | .error e2 =>
      match stageRedownload parse remoteC with
      | .ok j => .ok j
      | .error e3 => .error (e1, e2, e3)

/-! ## Modular core ResourceManager (src/core/ResourceManager.ts) with the
JsonProcessor of the ProcessorFactory (src/processors/ProcessorFactory.ts) -/

/-- Embedding of `JsonProcessor.isResourcePath`: contains a dot, does not
start with `http`, does not start with `//`. -/
def isResourcePath (path : String) : Bool :=
  strHasChar path '.' && !(strStartsWith path "http") &&
    !(strStartsWith path "//")

mutual

/-- Embedding of `JsonProcessor.findReferences`: the inner `traverse` only
enters non-null objects (JavaScript arrays included, via `Object.entries`);
for each entry, a string value passing `isResourcePath` is collected, an
object value is recursed into, and every other value is skipped. A top-level
non-object datum yields nothing. Keys play no role. -/
def findRefs : Json → List String
  | .obj entries => findRefsObj entries
  | .arr elems => findRefsArr elems
  | _ => []

/-- The body of the `Object.entries` loop of `findReferences` for one entry
value: a string passing `isResourcePath` is collected, a non-null object is
recursed into, every other value is skipped. -/
def findRefsEntry : Json → List String
  | .str s => if isResourcePath s then [s] else []
  | .obj es => findRefsObj es
  | .arr es => findRefsArr es
  | _ => []

/-- `findReferences` over the entries of a JavaScript array. -/
def findRefsArr : List Json → List String
  | [] => []
  | x :: xs => findRefsEntry x ++ findRefsArr xs

/-- `findReferences` over the entries of an object. -/
def findRefsObj : List (String × Json) → List String
  | [] => []
  | (_, v) :: rest => findRefsEntry v ++ findRefsObj rest

end

/-- Kernel-computable `String.toLowerCase`. -/
def strToLower (s : String) : String :=
  ⟨s.data.map Char.toLower⟩

/-- Embedding of `ProcessorFactory.getFileExtension`: the lowercased suffix
from the last dot; when a compound extension (the last two dot components)
is one of the ignored compound extensions, the compound extension is
returned instead. An undotted path yields the empty string. -/
def rGetFileExtension (path : String) : String :=
  match (splitOnChar '.' path).reverse with
  | [] => ""
  | [_] => ""
  | last :: second :: rest =>
    let ext := strToLower ("." ++ last)
    if rest.isEmpty then ext
    else
      let compound := strToLower ("." ++ second ++ "." ++ last)
      if compound = ".ltcb.ls" || compound = ".lanit.ls" then compound
      else ext

/-- The processors registered by
`ProcessorFactory.initializeBuiltinProcessors`. -/
inductive ProcKind where
  | json
  | binary
  | text
deriving DecidableEq, Repr

/-- Embedding of `ProcessorFactory.getProcessorForFile`: resolve the file
extension and look it up in the extension map of the built-in processors
(the three extension sets are disjoint, so registration priority does not
matter). `none` means no processor was found. -/
def rGetProcessorKind (path : String) : Option ProcKind :=
  let ext := rGetFileExtension path
  if ext = "" then none
  else if ext ∈ [".json", ".ls", ".lh", ".lmat", ".ltc"] then some .json
  else if ext ∈ [".bin", ".dat", ".asset"] then some .binary
  else if ext ∈ [".txt", ".md", ".log"] then some .text
  else none

/-- Embedding of `ResourceManager.isTopLevelFile`
(src/core/ResourceManager.ts): scans only `topLevelHierarchyExtensions`,
returning true on the first suffix match. Unlike
`FileProcessor.isTopLevelHierarchy`, the ignored compound extensions are
never consulted. -/
def rIsTopLevelFile (topLevelHierarchyExtensions : List String)
    (filePath : String) : Bool :=
  endsWithAny filePath topLevelHierarchyExtensions

/-- Per-path status of a `FileProcessingContext`. -/
inductive RStatus where
  | processing
  | success
  | failed
deriving DecidableEq, Repr

/-- A thrown `ResourceParserError`, by code. -/
inductive RErr where
  | maxDepthExceeded
  | downloadError
  | processError
deriving DecidableEq, Repr

/-- JavaScript `Map.set`: update in place or append. -/
def ctxSet (ctxs : List (String × RStatus)) (p : String) (s : RStatus) :
    List (String × RStatus) :=
  match ctxs with
  | [] => [(p, s)]
  | (k, v) :: rest =>
    if k = p then (p, s) :: rest else (k, v) :: ctxSet rest p s

/-- The shared mutable state of the core `ResourceManager` during one
`parse()` call: the `processedFiles` set, the `result.fileList` array (plain
array - `push` is unconditional), and the `processingContexts` map projected
to its `status` field. -/
structure RState where
  processedFiles : List String
  fileList : List String
  contexts : List (String × RStatus)
deriving DecidableEq, Repr

/-- The slice of `ResourceConfig` that `processFile` consults. The defaults
(src/config/defaults.ts) are `maxDepth = 10`, `skipProcessedFiles = true`. -/
structure RConfig where
  maxDepth : Option Nat
  skipProcessedFiles : Bool

/-- One resolve call's world for the core manager: each obtainable path
(present locally or downloadable, so that `downloadIfNeeded` resolves) is
mapped to the `JSON.parse` outcome of its content - `none` meaning the parse
throws, so `JsonProcessor.process` returns `success: false`. Paths absent
from the list make `downloadIfNeeded` reject (e.g. HTTP 404 after
retries). -/
abbrev RFs := List (String × Option Json)

/-- Embedding of `ResourceManager.processFile(filePath, depth)`
(src/core/ResourceManager.ts). Result `none` is exhausted fuel;
`some (st, none)` is normal return; `some (st, some e)` means the call threw
`e` with the instance state already mutated to `st`. In source order:
(1) `depth > maxDepth` (when configured) throws `MAX_DEPTH_EXCEEDED` before
any mutation; (2) when `skipProcessedFiles` is set, an already-processed path
returns silently; (3) the processing context is created with status
`processing`, the path enters `processedFiles` and is pushed onto
`result.fileList`; (4) `downloadIfNeeded` - an unobtainable path marks the
context failed and throws; (5) a path without a registered processor returns
with status `success`; (6) the `JsonProcessor` parses the file - on parse
failure the context is marked failed and the call throws; binary/text
processors succeed without producing references; (7) on success the context
is marked `success` and `processReferences` recurses into
`findReferences(data)` at `depth + 1` sequentially, each child wrapped in a
`try`/`catch` that swallows (only logs) the child's exception. -/
def rProcessFile (cfg : RConfig) (rfs : RFs) :
    Nat → String → Nat → RState → Option (RState × Option RErr)
  | 0, _, _, _ => none
  | fuel + 1, filePath, depth, st =>
    if (match cfg.maxDepth with
        | some d => decide (depth > d)
        | none => false) then
      some (st, some .maxDepthExceeded)
    else if cfg.skipProcessedFiles && filePath ∈ st.processedFiles then
      some (st, none)
    else
      let st1 : RState :=
        ⟨setAdd st.processedFiles filePath, st.fileList ++ [filePath],
         ctxSet st.contexts filePath .processing⟩
      match lookupFs rfs filePath with
      | none =>
        some ({ st1 with contexts := ctxSet st1.contexts filePath .failed },
          some .downloadError)
      | some parsed =>
        match rGetProcessorKind filePath with
        | none =>
          some ({ st1 with contexts := ctxSet st1.contexts filePath .success },
            none)
        | some .binary =>
          some ({ st1 with contexts := ctxSet st1.contexts filePath .success },
            none)
        | some .text =>
          some ({ st1 with contexts := ctxSet st1.contexts filePath .success },
            none)
        | some .json =>
          match parsed with
          | none =>
            some
              ({ st1 with contexts := ctxSet st1.contexts filePath .failed },
                some .processError)
          | some j =>
            let st2 : RState :=
              { st1 with contexts := ctxSet st1.contexts filePath .success }
            match (findRefs j).foldl
                (fun acc ref =>
                  match acc with
                  | none => none
                  | some st' =>
                    match rProcessFile cfg rfs fuel ref (depth + 1) st' with
                    | none => none
                    | some (st'', _) => some st'')
                (some st2) with
            | none => none
            | some st3 => some (st3, none)

/-- Embedding of `ResourceManager.processReferences(references, depth)` as a
standalone function: each reference is processed at the given depth and its
exception, if any, is swallowed after logging. -/
def rProcessRefs (cfg : RConfig) (rfs : RFs) (fuel : Nat) (refs : List String)
    (depth : Nat) (st : RState) : Option RState :=
  refs.foldl
    (fun acc ref =>
      match acc with
      | none => none
      | some st' =>
        match rProcessFile cfg rfs fuel ref depth st' with
        | none => none
        | some (st'', _) => some st'')
    (some st)

/-- Accumulator loop of `ResourceManager.processFiles`: each top-level file
is processed at depth 0; normal return increments `successFiles`, a thrown
error increments `failedFiles` and appends `(filePath, error)` to
`result.errors`. -/
def rProcessFilesAux (cfg : RConfig) (rfs : RFs) (fuel : Nat) :
    List String → RState → Nat → Nat → List (String × RErr) →
    Option (RState × Nat × Nat × List (String × RErr))
  | [], st, succ, fail, errs => some (st, succ, fail, errs)
  | e :: es, st, succ, fail, errs =>
    match rProcessFile cfg rfs fuel e 0 st with
    | none => none
    | some (st', none) => rProcessFilesAux cfg rfs fuel es st' (succ + 1) fail errs
    | some (st', some err) =>
      rProcessFilesAux cfg rfs fuel es st' succ (fail + 1) (errs ++ [(e, err)])

/-- The observable outcome of `ResourceManager.parse()`: the
`ResourceProcessResult` counts and lists plus the context statuses. -/
structure RResult where
  totalFiles : Nat
  successFiles : Nat
  failedFiles : Nat
  fileList : List String
  topLevelFiles : List String
  errors : List (String × RErr)
  contexts : List (String × RStatus)
deriving DecidableEq, Repr

/-- Embedding of `ResourceManager.parse()` (src/core/ResourceManager.ts):
collect the top-level files from the walked directory listing with
`isTopLevelFile` (also setting `totalFiles`), then run `processFiles` over
them; per-path failures are absorbed into the error list and the counts, and
the accumulated result is returned. -/
def rParse (cfg : RConfig) (rfs : RFs) (allFiles : List String)
    (topLevelHierarchyExtensions : List String) (fuel : Nat) :
    Option RResult :=
  let entries := allFiles.filter
    (fun f => rIsTopLevelFile topLevelHierarchyExtensions f)
  match rProcessFilesAux cfg rfs fuel entries ⟨[], [], []⟩ 0 0 [] with
  | none => none
  | some (st, succ, fail, errs) =>
    some ⟨entries.length, succ, fail, st.fileList, entries, errs, st.contexts⟩

/-! ## DownloadManager request coalescing (src/downloaders/DownloadManager.ts) -/

/-- The shared mutable structures of `DownloadManager`: the byte `cache`, the
`downloadQueue` of in-flight promises (its key set), and the multiset of
active `createDownloadTask` executions (each of which owns at most one
outstanding network request at a time - retries are sequential within a
task). -/
structure DMState where
  cache : Finset String
  inflight : Finset String
  tasks : Multiset String

/-- Events of one `downloadFile`/task lifecycle. -/
inductive DMEvent where
  | start (p : String)
  | finishOk (p : String)
  | finishErr (p : String)

/-- The atomic steps of `DownloadManager`, each corresponding to one
synchronous (await-free) section of the source. A `start p` is the
synchronous prefix of `downloadFile(p)`: it either returns the cached bytes
(line: cache check), awaits the already-queued promise (line: downloadQueue
check), or - only when neither holds - creates a download task and inserts
it into `downloadQueue` before any suspension point, in one atomic section.
A `finish` step is the task settling: the `try`/`finally` of `downloadFile`
caches the bytes on success and always removes the queue entry and the
active-download marker. -/
inductive DMStep : DMState → DMEvent → DMState → Prop
  | startCached {s p} : p ∈ s.cache → DMStep s (.start p) s
  | startCoalesced {s p} : p ∉ s.cache → p ∈ s.inflight → DMStep s (.start p) s
  | startNew {s p} : p ∉ s.cache → p ∉ s.inflight →
      DMStep s (.start p) ⟨s.cache, insert p s.inflight, p ::ₘ s.tasks⟩
  | finishOk {s p} : p ∈ s.tasks →
      DMStep s (.finishOk p) ⟨insert p s.cache, s.inflight.erase p, s.tasks.erase p⟩
  | finishErr {s p} : p ∈ s.tasks →
      DMStep s (.finishErr p) ⟨s.cache, s.inflight.erase p, s.tasks.erase p⟩

/-- A fresh `DownloadManager`. -/
def DMState.init : DMState := ⟨∅, ∅, 0⟩

/-- States an interleaving of `downloadFile` calls and task completions can
reach from a fresh manager. -/
def DMReachable (s : DMState) : Prop :=
  Relation.ReflTransGen (fun a b => ∃ e, DMStep a e b) DMState.init s

/-! ## Further definitions used by the statements and proofs -/

/-- Embedding of the legacy `ResourceManager.getLocalFilePath`:
`join(base, filePath.replace(whitespace, "_"))` - the normalization is
applied when deriving the local file path. -/
def getLocalFilePath (base filePath : String) : String :=
  nodeJoin base (normalizePath filePath)

/-- The references extractable from any file of an `LFs` world. -/
def refsUnion (cfg : LConfig) : LFs → Finset String
  | [] => ∅
  | (p, c) :: rest =>
    (match c with
     | .ok j => (extractRefs cfg p j).toFinset
     | .error _ => ∅) ∪ refsUnion cfg rest

/-- Every path the recursion of `parseHierarchyFile` can ever process beyond
its starting points: the obtainable paths together with every reference
extractable from an obtainable file. -/
def lUniverse (cfg : LConfig) (fs : LFs) : Finset String :=
  (fs.map Prod.fst).toFinset ∪ refsUnion cfg fs

/-- The `FileProcessor` state invariant: `processedFiles` and `fileList` hold
the same paths in the same insertion order, without duplicates. -/
def FPInv (st : FPState) : Prop :=
  st.processedFiles = st.fileList ∧ st.fileList.Nodup

/-- The default `RConfig` (src/config/defaults.ts): `maxDepth = 10`,
`skipProcessedFiles = true`. -/
def defaultRConfig : RConfig := ⟨some 10, true⟩

/-- The default `topLevelHierarchyExtensions`. -/
def defaultTopExts : List String := [".ls", ".lh"]

/-- The end-to-end scenario of the specification: the base directory holds
`top.ls` whose JSON references `child.lmat`; the remote serves `child.lmat`
referencing `grand.ltc`, and `grand.ltc` with no references. -/
def endToEndFs : RFs :=
  [("top.ls", some (.obj [("name", .str "child.lmat")])),
   ("child.lmat", some (.obj [("name", .str "grand.ltc")])),
   ("grand.ltc", some (.obj [("done", .bool true)]))]

/-- The partial-failure scenario: `bad.ls` is unobtainable (remote 404),
`ok1.ls` and `ok2.ls` are independent entry files with no references. -/
def partialFs : RFs :=
  [("ok1.ls", some (.obj [])), ("ok2.ls", some (.obj []))]

/-- The depth-bound scenario: `top.ls` references `a.lmat`, which references
`b.ltc`; with `maxDepth = 1` the reference `b.ltc` is discovered at
depth 2. -/
def depthFs : RFs :=
  [("top.ls", some (.obj [("a", .str "a.lmat")])),
   ("a.lmat", some (.obj [("b", .str "b.ltc")])),
   ("b.ltc", some (.obj []))]

/-- A two-member reference cycle: `sub/A.ls` references `sub/B.ls` (as
`./B.ls`) and vice versa. -/
def cycleFs : LFs :=
  [("sub/A.ls", .ok (.obj [("tex", .str "./B.ls")])),
   ("sub/B.ls", .ok (.obj [("tex", .str "./A.ls")]))]

/-- Two entry files whose paths differ only in whitespace versus underscore,
so they normalize to the same local path. -/
def whitespaceFs : LFs :=
  [("a b.ls", .ok (.obj [])), ("a_b.ls", .ok (.obj []))]

/-- The coupling invariant of the `DownloadManager`: every active download
task for a path is covered by that path's `downloadQueue` entry, and the
queue is a set - so a path has at most one active task, and none once its
queue entry is gone. -/
def DMInv (s : DMState) : Prop :=
  ∀ p, s.tasks.count p ≤ if p ∈ s.inflight then 1 else 0

/-! ## Soundness of the `traverseData` filter: whatever reaches the callback
was rejected by the filter -/

mutual

theorem traverseData_sound (flt : List PathElem → String → Json → Bool) :
    ∀ (j : Json) (path : List PathElem) (t : Triple),
      t ∈ traverseData flt j path → flt t.path t.key (.str t.value) = false
  | .null, _, _, h => by simp [traverseData] at h
  | .bool _, _, _, h => by simp [traverseData] at h
  | .num _, _, _, h => by simp [traverseData] at h
  | .str s, path, t, h => by
    by_cases hf : flt path "" (.str s) = true
    · simp [traverseData, hf] at h
    · simp only [Bool.not_eq_true] at hf
      simp [traverseData, hf] at h
      subst h
      exact hf
  | .arr elems, path, t, h => traverseArr_sound flt elems 0 path t (by
      simpa [traverseData] using h)
  | .obj entries, path, t, h => traverseObj_sound flt entries path t (by
      simpa [traverseData] using h)

theorem traverseArr_sound (flt : List PathElem → String → Json → Bool) :
    ∀ (xs : List Json) (i : Nat) (path : List PathElem) (t : Triple),
      t ∈ traverseArr flt xs i path → flt t.path t.key (.str t.value) = false
  | [], _, _, _, h => by simp [traverseArr] at h
  | x :: xs, i, path, t, h => by
    simp only [traverseArr, List.mem_append] at h
    rcases h with h | h
    · exact traverseData_sound flt x (path ++ [.idx i]) t h
    · exact traverseArr_sound flt xs (i + 1) path t h

theorem traverseObj_sound (flt : List PathElem → String → Json → Bool) :
    ∀ (kvs : List (String × Json)) (path : List PathElem) (t : Triple),
      t ∈ traverseObj flt kvs path → flt t.path t.key (.str t.value) = false
  | [], _, _, h => by simp [traverseObj] at h
  | (k, v) :: rest, path, t, h => by
    simp only [traverseObj, List.mem_append] at h
    rcases h with h | h
    · by_cases hf : flt (path ++ [.key k]) k v = true
      · simp [hf] at h
      · simp only [Bool.not_eq_true] at hf
        rw [if_neg (by simp [hf])] at h
        cases v with
        | str s =>
          simp at h
          subst h
          exact hf
        | null => exact traverseData_sound flt .null (path ++ [.key k]) t h
        | bool b => exact traverseData_sound flt (.bool b) (path ++ [.key k]) t h
        | num n => exact traverseData_sound flt (.num n) (path ++ [.key k]) t h
        | arr es => exact traverseData_sound flt (.arr es) (path ++ [.key k]) t h
        | obj es => exact traverseData_sound flt (.obj es) (path ++ [.key k]) t h
    · exact traverseObj_sound flt rest path t h

end

/-! ## The `name` filter never lets the traversal pass through a `"name"`
key: a filter-accepted entry's subtree is not entered -/

theorem nameFree_shift {path : List PathElem} {e : PathElem} {t : Triple}
    (he : e ≠ PathElem.key "name")
    (h : ∃ suffix, t.path = (path ++ [e]) ++ suffix ∧
      PathElem.key "name" ∉ suffix) :
    ∃ suffix, t.path = path ++ suffix ∧ PathElem.key "name" ∉ suffix := by
  obtain ⟨suffix, heq, hn⟩ := h
  refine ⟨e :: suffix, by simpa using heq, ?_⟩
  intro hc
  rcases List.mem_cons.mp hc with hc | hc
  · exact he hc.symm
  · exact hn hc

mutual

theorem traverseData_nameFree :
    ∀ (j : Json) (path : List PathElem) (t : Triple),
      t ∈ traverseData nameFilter j path →
      ∃ suffix, t.path = path ++ suffix ∧ PathElem.key "name" ∉ suffix
  | .null, _, _, h => by simp [traverseData] at h
  | .bool _, _, _, h => by simp [traverseData] at h
  | .num _, _, _, h => by simp [traverseData] at h
  | .str s, path, t, h => by
    simp [traverseData, nameFilter] at h
    subst h
    exact ⟨[], by simp, by simp⟩
  | .arr elems, path, t, h =>
    traverseArr_nameFree elems 0 path t (by simpa [traverseData] using h)
  | .obj entries, path, t, h =>
    traverseObj_nameFree entries path t (by simpa [traverseData] using h)

theorem traverseArr_nameFree :
    ∀ (xs : List Json) (i : Nat) (path : List PathElem) (t : Triple),
      t ∈ traverseArr nameFilter xs i path →
      ∃ suffix, t.path = path ++ suffix ∧ PathElem.key "name" ∉ suffix
  | [], _, _, _, h => by simp [traverseArr] at h
  | x :: xs, i, path, t, h => by
    simp only [traverseArr, List.mem_append] at h
    rcases h with h | h
    · exact nameFree_shift (by simp)
        (traverseData_nameFree x (path ++ [.idx i]) t h)
    · exact traverseArr_nameFree xs (i + 1) path t h

theorem traverseObj_nameFree :
    ∀ (kvs : List (String × Json)) (path : List PathElem) (t : Triple),
      t ∈ traverseObj nameFilter kvs path →
      ∃ suffix, t.path = path ++ suffix ∧ PathElem.key "name" ∉ suffix
  | [], _, _, h => by simp [traverseObj] at h
  | (k, v) :: rest, path, t, h => by
    simp only [traverseObj, List.mem_append] at h
    rcases h with h | h
    · by_cases hk : nameFilter (path ++ [.key k]) k v = true
      · simp [hk] at h
      · simp only [Bool.not_eq_true] at hk
        rw [if_neg (by simp [hk])] at h
        have hkname : ¬(k = "name") := by simpa [nameFilter] using hk
        cases v with
        | str s =>
          simp at h
          subst h
          refine ⟨[.key k], by simp, ?_⟩
          intro hc
          simp only [List.mem_singleton, PathElem.key.injEq] at hc
          exact hkname hc.symm
        | null =>
          exact nameFree_shift (by simpa using hkname)
            (traverseData_nameFree .null (path ++ [.key k]) t h)
        | bool b =>
          exact nameFree_shift (by simpa using hkname)
            (traverseData_nameFree (.bool b) (path ++ [.key k]) t h)
        | num n =>
          exact nameFree_shift (by simpa using hkname)
            (traverseData_nameFree (.num n) (path ++ [.key k]) t h)
        | arr es =>
          exact nameFree_shift (by simpa using hkname)
            (traverseData_nameFree (.arr es) (path ++ [.key k]) t h)
        | obj es =>
          exact nameFree_shift (by simpa using hkname)
            (traverseData_nameFree (.obj es) (path ++ [.key k]) t h)
    · exact traverseObj_nameFree rest path t h

end

/-! ## Claim C2 -/

/-- Claim C2, counterexample: in the tree `{"name": "a/b.png"}` the key
`name` is accepted by the resolver's filter and its value is a string, yet
`traverseData` invokes the callback on nothing at all - the filter-accepted
entry is skipped, not included; and in `{"name": {"deep": "a/b.png"}}` the
non-string value under the accepted key is not entered either - the claim
would require the callback to fire on `"a/b.png"` at the unfiltered inner
key `deep`, but the traversal emits nothing. -/
theorem claim_C2_counterexample :
    nameFilter [PathElem.key "name"] "name" (.str "a/b.png") = true ∧
    traverseData nameFilter (.obj [("name", .str "a/b.png")]) [] = [] ∧
    nameFilter [PathElem.key "name"] "name"
      (.obj [("deep", .str "a/b.png")]) = true ∧
    traverseData nameFilter
      (.obj [("name", .obj [("deep", .str "a/b.png")])]) [] = [] := by
  decide

/-- Claim C2, amended: when the filter returns true for a key, `traverseData`
skips that entry entirely - neither invoking the callback on a string value
nor entering the subtree. Conjunct 1: every callback invocation carries a
path, key and value on which the filter returned false. Conjunct 2: the
subtree under a filter-accepted key is never entered - replacing it by any
other filter-accepted value leaves the traversal's output unchanged.
Conjunct 3: with the resolver's predicate (`key === "name"`), no callback
invocation ever comes from inside a subtree guarded by a `"name"` key - its
path, relative to the starting path, passes through no `"name"` key at all.
Hence exactly the string values at keys other than `"name"` inside subtrees
not guarded by a `"name"` key are offered to reference extraction, as the
concrete conjunct illustrates: the string buried under `"name"` is not
offered, the sibling `"tex"` string is. -/
theorem claim_C2_amended :
    (∀ (flt : List PathElem → String → Json → Bool) (j : Json)
        (path : List PathElem) (t : Triple),
        t ∈ traverseData flt j path → flt t.path t.key (.str t.value) = false) ∧
    (∀ (flt : List PathElem → String → Json → Bool) (k : String)
        (v v' : Json) (rest : List (String × Json)) (path : List PathElem),
        flt (path ++ [.key k]) k v = true →
        flt (path ++ [.key k]) k v' = true →
        traverseData flt (.obj ((k, v) :: rest)) path =
          traverseData flt (.obj ((k, v') :: rest)) path) ∧
    (∀ (j : Json) (path : List PathElem) (t : Triple),
        t ∈ traverseData nameFilter j path →
        ∃ suffix, t.path = path ++ suffix ∧ PathElem.key "name" ∉ suffix) ∧
    traverseData nameFilter
        (.obj [("name", .obj [("deep", .str "a/b.png")]),
          ("tex", .str "c/d.png")]) [] =
      [⟨[.key "tex"], "tex", "c/d.png"⟩] :=
  ⟨fun flt j path t h => traverseData_sound flt j path t h,
   fun flt k v v' rest path h1 h2 => by
     simp [traverseData, traverseObj, h1, h2],
   fun j path t h => traverseData_nameFree j path t h,
   by decide⟩

/-- Claim C2, witness: the amended theorem's three universal conjuncts
applied at concrete inputs - the filter-false soundness at the collected
`"tex"` triple, the subtree-irrelevance of a `"name"`-guarded object versus
`null`, and the name-free path of the collected triple. -/
theorem claim_C2_witness :
    nameFilter [PathElem.key "tex"] "tex" (.str "c/d.png") = false ∧
    traverseData nameFilter
        (.obj [("name", .obj [("deep", .str "a/b.png")])]) [] =
      traverseData nameFilter (.obj [("name", .null)]) [] ∧
    PathElem.key "name" ∉ ([PathElem.key "tex"] : List PathElem) :=
  ⟨claim_C2_amended.1 nameFilter
     (.obj [("name", .obj [("deep", .str "a/b.png")]),
       ("tex", .str "c/d.png")]) []
     ⟨[PathElem.key "tex"], "tex", "c/d.png"⟩ (by decide),
   claim_C2_amended.2.1 nameFilter "name" (.obj [("deep", .str "a/b.png")])
     .null [] [] (by decide) (by decide),
   by
     obtain ⟨suffix, hs, hn⟩ := claim_C2_amended.2.2.1
       (.obj [("name", .obj [("deep", .str "a/b.png")]),
         ("tex", .str "c/d.png")]) []
       ⟨[PathElem.key "tex"], "tex", "c/d.png"⟩ (by decide)
     simp only [List.nil_append] at hs
     rw [hs]
     exact hn⟩

/-! ## Claim C7 -/

/-- Claim C7: `FileProcessor.isTopLevelHierarchy` selects exactly the paths
ending in an entry extension and not in an ignored compound suffix, with the
ignored check taking precedence; in particular `x.ltcb.ls` is rejected (and
is not parsable either). The core `ResourceManager.isTopLevelFile`, however,
never consults the ignored suffixes and accepts `x.ltcb.ls` - the code slip
this claim exposes. -/
theorem claim_C7_theorem :
    (∀ (cfg : LConfig) (path : String),
        isTopLevelHierarchy cfg path =
          (endsWithAny path cfg.topLevelHierarchyExtensions &&
           !endsWithAny path cfg.ignoredHierarchyExtensions)) ∧
    isTopLevelHierarchy defaultLConfig "x.ltcb.ls" = false ∧
    isParsable defaultLConfig "x.ltcb.ls" = false ∧
    rIsTopLevelFile defaultTopExts "x.ltcb.ls" = true := by
  refine ⟨fun cfg path => ?_, by decide, by decide, by decide⟩
  by_cases h : endsWithAny path cfg.ignoredHierarchyExtensions = true <;>
    simp [isTopLevelHierarchy, h]

/-! ## Claim C9 -/

/-- Claim C9, counterexample: normalization maps each whitespace character to
its own underscore, so two consecutive spaces become two underscores, not
one. -/
theorem claim_C9_counterexample :
    normalizePath "a  b" = "a__b" ∧ normalizePath "a  b" ≠ "a_b" := by
  decide

/-- Claim C9, amended: `normalizePath` replaces every whitespace character
with a single underscore (so a run of `n` whitespace characters becomes `n`
underscores - the length is preserved and no whitespace survives), it is a
pure function of its input, and it is applied when deriving the local file
path (`getLocalFilePath`): the two spellings `"a b.ls"` and `"a_b.ls"` share
one local path, while the processed-file deduplication keys on the raw
spelling and processes them separately. -/
theorem claim_C9_amended :
    (∀ s : String, (normalizePath s).length = s.length) ∧
    (∀ s : String,
        (normalizePath s).data.all (fun c => !isWhitespaceJS c) = true) ∧
    getLocalFilePath "base" "a b.ls" = "base/a_b.ls" ∧
    getLocalFilePath "base" "a_b.ls" = "base/a_b.ls" ∧
    resolve defaultLConfig whitespaceFs ["a b.ls", "a_b.ls"] 10 =
      some (⟨["a b.ls", "a_b.ls"], ["a b.ls", "a_b.ls"]⟩, true) := by
  refine ⟨fun s => ?_, fun s => ?_, by decide, by decide, by decide⟩
  · exact List.length_map s.data normChar
  · simp only [normalizePath, List.all_eq_true]
    intro c hc
    rcases List.mem_map.mp hc with ⟨a, _, ha⟩
    subst ha
    unfold normChar
    by_cases hw : isWhitespaceJS a = true
    · simp [hw]
      decide
    · simp only [Bool.not_eq_true] at hw
      simp [hw]

/-! ## Claim C5 -/

/-- Claim C5: `readFileContent` attempts its three stages in order - (i)
`readJSON` of the local file, (ii) raw bytes from disk decoded and parsed,
(iii) re-download and parse - and returns the first success; it fails exactly
when all three stages fail, and then its failure record carries all three
causes. A file whose content cannot be obtained in parsable form
(`lookupFs fs p = some (.error u)`) makes `parseHierarchyFile` throw right
after registering the path, so its references are never recursed into: the
resulting state carries only the path itself. -/
theorem claim_C5_theorem :
    (∀ (parse : String → Option Json) (localC remoteC : Option String) j,
        stageReadJSON parse localC = .ok j →
        readFileContent parse localC remoteC = .ok j) ∧
    (∀ (parse : String → Option Json) (localC remoteC : Option String) e1 j,
        stageReadJSON parse localC = .error e1 →
        stageRawBuffer parse localC = .ok j →
        readFileContent parse localC remoteC = .ok j) ∧
    (∀ (parse : String → Option Json) (localC remoteC : Option String) e1 e2 j,
        stageReadJSON parse localC = .error e1 →
        stageRawBuffer parse localC = .error e2 →
        stageRedownload parse remoteC = .ok j →
        readFileContent parse localC remoteC = .ok j) ∧
    (∀ (parse : String → Option Json) (localC remoteC : Option String) e1 e2 e3,
        readFileContent parse localC remoteC = .error (e1, e2, e3) ↔
          (stageReadJSON parse localC = .error e1 ∧
           stageRawBuffer parse localC = .error e2 ∧
           stageRedownload parse remoteC = .error e3)) ∧
    (∀ (cfg : LConfig) (fs : LFs) (fuel : Nat) (p : String) (st : FPState) u,
        lookupFs fs p = some (.error u) →
        p ∉ st.processedFiles →
        isParsable cfg p = true →
        parseHierarchyFile cfg fs (fuel + 1) p st =
          some (⟨setAdd st.processedFiles p, setAdd st.fileList p⟩, false)) := by
  refine ⟨?_, ?_, ?_, ?_, ?_⟩
  · intro parse localC remoteC j h1
    simp [readFileContent, h1]
  · intro parse localC remoteC e1 j h1 h2
    simp [readFileContent, h1, h2]
  · intro parse localC remoteC e1 e2 j h1 h2 h3
    simp [readFileContent, h1, h2, h3]
  · intro parse localC remoteC e1 e2 e3
    constructor
    · intro h
      cases h1 : stageReadJSON parse localC with
      | ok j => simp [readFileContent, h1] at h
      | error f1 =>
        cases h2 : stageRawBuffer parse localC with
        | ok j => simp [readFileContent, h1, h2] at h
        | error f2 =>
          cases h3 : stageRedownload parse remoteC with
          | ok j => simp [readFileContent, h1, h2, h3] at h
          | error f3 =>
            simp [readFileContent, h1, h2, h3] at h
            exact ⟨by rw [h.1], by rw [h.2.1], by rw [h.2.2]⟩
    · rintro ⟨h1, h2, h3⟩
      simp [readFileContent, h1, h2, h3]
  · intro cfg fs fuel p st u hlk hmem hpars
    simp [parseHierarchyFile, hmem, hlk, hpars]

/-- Claim C5, witness: the theorem's conjuncts applied at concrete stage
outcomes - a parse function accepting only the remote text, an unreadable
local copy and a concrete one-file world whose content fails every stage. -/
theorem claim_C5_witness :
    (stageReadJSON (fun s => if s = "r" then some .null else none)
        (some "l") = .error .parseError ∧
     stageRawBuffer (fun s => if s = "r" then some .null else none)
        (some "l") = .error .parseError ∧
     stageRedownload (fun s => if s = "r" then some .null else none)
        (some "r") = .ok .null ∧
     readFileContent (fun s => if s = "r" then some .null else none)
        (some "l") (some "r") = .ok .null) ∧
    (readFileContent (fun _ => none) none none =
        .error (.readError, .readError, .downloadError) ↔
      (stageReadJSON (fun _ => none) none = .error .readError ∧
       stageRawBuffer (fun _ => none) none = .error .readError ∧
       stageRedownload (fun _ => none) none = .error .downloadError)) ∧
    parseHierarchyFile defaultLConfig [("bad.ls", .error ())] 4 "bad.ls"
        ⟨[], []⟩ = some (⟨["bad.ls"], ["bad.ls"]⟩, false) := by
  refine ⟨⟨by rfl, by rfl, by rfl, ?_⟩, ?_, ?_⟩
  · exact claim_C5_theorem.2.2.1 (fun s => if s = "r" then some .null else none)
      (some "l") (some "r") .parseError .parseError .null (by rfl) (by rfl)
      (by rfl)
  · exact claim_C5_theorem.2.2.2.1 (fun _ => none) none none
      .readError .readError .downloadError
  · exact claim_C5_theorem.2.2.2.2 defaultLConfig [("bad.ls", .error ())] 3
      "bad.ls" ⟨[], []⟩ () (by rfl) (by simp) (by rfl)

/-! ## Claim C1 -/

/-- Claim C1, counterexample: on the specification's end-to-end scenario the
file list is indeed `["top.ls", "child.lmat", "grand.ltc"]` and nothing
fails, but the success count is 1, not 3: `processFiles` increments
`successFiles` once per top-level entry file, never for recursively
discovered references. -/
theorem claim_C1_counterexample :
    (rParse defaultRConfig endToEndFs ["top.ls"] defaultTopExts 10).map
        RResult.fileList = some ["top.ls", "child.lmat", "grand.ltc"] ∧
    (rParse defaultRConfig endToEndFs ["top.ls"] defaultTopExts 10).map
        RResult.failedFiles = some 0 ∧
    (rParse defaultRConfig endToEndFs ["top.ls"] defaultTopExts 10).map
        RResult.successFiles = some 1 ∧
    (rParse defaultRConfig endToEndFs ["top.ls"] defaultTopExts 10).map
        RResult.successFiles ≠ some 3 := by
  decide

/-- Claim C1, amended: on the end-to-end scenario `parse()` returns a result
whose file list is exactly `["top.ls", "child.lmat", "grand.ltc"]` with a
failed count of 0 and a success count of 1 - the success counter counts
completed top-level entry files only, and the scenario has one entry file;
all three visited paths end with status `success`. -/
theorem claim_C1_amended :
    rParse defaultRConfig endToEndFs ["top.ls"] defaultTopExts 10 =
      some ⟨1, 1, 0, ["top.ls", "child.lmat", "grand.ltc"], ["top.ls"], [],
        [("top.ls", .success), ("child.lmat", .success),
         ("grand.ltc", .success)]⟩ := by
  decide

/-! ## Counting in `processFiles` (claim C4) -/

/-- Each iteration of `processFiles` settles exactly one entry file: a normal
return bumps `successFiles`, a thrown error bumps `failedFiles` and appends
one `(filePath, error)` pair, so the final counts add up to the number of
entries and the error list stays in bijection with the failures. -/
theorem rProcessFilesAux_spec (cfg : RConfig) (rfs : RFs) (fuel : Nat) :
    ∀ (es : List String) (st : RState) (succ fail : Nat)
      (errs : List (String × RErr)) (st' : RState) (succ' fail' : Nat)
      (errs' : List (String × RErr)),
      rProcessFilesAux cfg rfs fuel es st succ fail errs =
        some (st', succ', fail', errs') →
      succ' + fail' = succ + fail + es.length ∧
      (errs.length = fail → errs'.length = fail')
  | [], st, succ, fail, errs, st', succ', fail', errs', h => by
    simp only [rProcessFilesAux, Option.some.injEq, Prod.mk.injEq] at h
    obtain ⟨-, h2, h3, h4⟩ := h
    subst h2; subst h3; subst h4
    exact ⟨by simp, fun h => h⟩
  | e :: es, st, succ, fail, errs, st', succ', fail', errs', h => by
    simp only [rProcessFilesAux] at h
    cases hpf : rProcessFile cfg rfs fuel e 0 st with
    | none => rw [hpf] at h; exact absurd h (by simp)
    | some r =>
      rw [hpf] at h
      obtain ⟨st2, err⟩ := r
      cases err with
      | none =>
        have ih := rProcessFilesAux_spec cfg rfs fuel es st2 (succ + 1) fail
          errs st' succ' fail' errs' h
        exact ⟨by have := ih.1; simp only [List.length_cons]; omega, ih.2⟩
      | some e0 =>
        have ih := rProcessFilesAux_spec cfg rfs fuel es st2 succ (fail + 1)
          (errs ++ [(e, e0)]) st' succ' fail' errs' h
        refine ⟨by have := ih.1; simp only [List.length_cons]; omega, ?_⟩
        intro hl
        exact ih.2 (by simp [hl])

/-! ## Claim C4 -/

/-- Claim C4: `parse()` absorbs per-path failures instead of throwing: every
run returns a result whose success and failed counts add up to the number of
entry files and whose error list has exactly one entry per failed entry file;
concretely, with `bad.ls` unobtainable (remote 404) and two independent
healthy entry files, the error list is exactly `[(bad.ls, downloadError)]`,
both other entries end with status `success`, and the counts are
total 3 / success 2 / failed 1. -/
theorem claim_C4_theorem :
    (∀ (cfg : RConfig) (rfs : RFs) (allFiles exts : List String) (fuel : Nat)
        (res : RResult),
        rParse cfg rfs allFiles exts fuel = some res →
        res.successFiles + res.failedFiles = res.totalFiles ∧
        res.errors.length = res.failedFiles ∧
        res.totalFiles = res.topLevelFiles.length) ∧
    rParse defaultRConfig partialFs ["bad.ls", "ok1.ls", "ok2.ls"]
        defaultTopExts 10 =
      some ⟨3, 2, 1, ["bad.ls", "ok1.ls", "ok2.ls"],
        ["bad.ls", "ok1.ls", "ok2.ls"], [("bad.ls", .downloadError)],
        [("bad.ls", .failed), ("ok1.ls", .success), ("ok2.ls", .success)]⟩ := by
  refine ⟨?_, by decide⟩
  intro cfg rfs allFiles exts fuel res h
  simp only [rParse] at h
  cases haux : rProcessFilesAux cfg rfs fuel
      (allFiles.filter fun f => rIsTopLevelFile exts f) ⟨[], [], []⟩ 0 0 [] with
  | none => rw [haux] at h; exact absurd h (by simp)
  | some r =>
    rw [haux] at h
    obtain ⟨st, succ, fail, errs⟩ := r
    have spec := rProcessFilesAux_spec cfg rfs fuel
      (allFiles.filter fun f => rIsTopLevelFile exts f) ⟨[], [], []⟩ 0 0 []
      st succ fail errs haux
    simp only [Option.some.injEq] at h
    subst h
    refine ⟨by have := spec.1; simp; omega, by simpa using spec.2 rfl, by simp⟩

/-- Claim C4, witness: the counting part applied to the concrete
partial-failure run. -/
theorem claim_C4_witness :
    rParse defaultRConfig partialFs ["bad.ls", "ok1.ls", "ok2.ls"]
        defaultTopExts 10 =
      some ⟨3, 2, 1, ["bad.ls", "ok1.ls", "ok2.ls"],
        ["bad.ls", "ok1.ls", "ok2.ls"], [("bad.ls", .downloadError)],
        [("bad.ls", .failed), ("ok1.ls", .success), ("ok2.ls", .success)]⟩ ∧
    (2 + 1 = 3 ∧
     ([("bad.ls", RErr.downloadError)] : List (String × RErr)).length = 1 ∧
     3 = (["bad.ls", "ok1.ls", "ok2.ls"] : List String).length) :=
  ⟨by decide,
   claim_C4_theorem.1 defaultRConfig partialFs ["bad.ls", "ok1.ls", "ok2.ls"]
     defaultTopExts 10
     ⟨3, 2, 1, ["bad.ls", "ok1.ls", "ok2.ls"],
       ["bad.ls", "ok1.ls", "ok2.ls"], [("bad.ls", .downloadError)],
       [("bad.ls", .failed), ("ok1.ls", .success), ("ok2.ls", .success)]⟩
     (by decide)⟩

/-! ## Claim C6 -/

/-- A call of `processFile` beyond the configured recursion depth throws
`MAX_DEPTH_EXCEEDED` without touching the state. -/
theorem rProcessFile_overDepth (cfg : RConfig) (rfs : RFs) (fuel : Nat)
    (p : String) (depth : Nat) (st : RState) (d : Nat)
    (hmd : cfg.maxDepth = some d) (hdep : depth > d) :
    rProcessFile cfg rfs (fuel + 1) p depth st =
      some (st, some .maxDepthExceeded) := by
  simp [rProcessFile, hmd, hdep]

/-- Claim C6, counterexample: with `maxDepth = 1` the reference `b.ltc`
discovered at depth 2 is not recursed into, but no `MaxDepthExceeded`
failure reaches the result's error list - the error list stays empty, because
`processReferences` swallows the thrown error after logging it. -/
theorem claim_C6_counterexample :
    (rParse ⟨some 1, true⟩ depthFs ["top.ls"] defaultTopExts 10).map
        RResult.errors = some [] ∧
    (rParse ⟨some 1, true⟩ depthFs ["top.ls"] defaultTopExts 10).map
        RResult.fileList = some ["top.ls", "a.lmat"] ∧
    some ([] : List (String × RErr)) ≠
      some [("b.ltc", RErr.maxDepthExceeded)] := by
  decide

/-- Claim C6, amended: when a reference's depth exceeds the configured
`maxDepth`, `processReferences` does not recurse into it and leaves the
shared state - file list, contexts and error list alike - completely
unchanged: the `MAX_DEPTH_EXCEEDED` error is thrown by `processFile` before
any mutation and swallowed (merely logged) by `processReferences`, so no
entry is recorded in the result's error list; the rest of the tree completes
normally, as the concrete `maxDepth = 1` run shows. -/
theorem claim_C6_amended :
    (∀ (cfg : RConfig) (rfs : RFs) (fuel : Nat) (refs : List String)
        (depth : Nat) (st : RState) (d : Nat),
        cfg.maxDepth = some d → depth > d → 0 < fuel →
        rProcessRefs cfg rfs fuel refs depth st = some st) ∧
    rParse ⟨some 1, true⟩ depthFs ["top.ls"] defaultTopExts 10 =
      some ⟨1, 1, 0, ["top.ls", "a.lmat"], ["top.ls"], [],
        [("top.ls", .success), ("a.lmat", .success)]⟩ := by
  refine ⟨?_, by decide⟩
  intro cfg rfs fuel refs depth st d hmd hdep hfuel
  obtain ⟨fuel, rfl⟩ : ∃ f, fuel = f + 1 :=
    ⟨fuel - 1, by omega⟩
  induction refs generalizing st with
  | nil => rfl
  | cons r rs ih =>
    have h1 := rProcessFile_overDepth cfg rfs fuel r depth st d hmd hdep
    simp only [rProcessRefs, List.foldl_cons]
    rw [h1]
    exact ih st

/-- Claim C6, witness: the amended theorem applied to a concrete over-depth
reference list. -/
theorem claim_C6_witness :
    rProcessRefs ⟨some 1, true⟩ depthFs 5 ["b.ltc"] 2
        ⟨["top.ls"], ["top.ls"], []⟩ =
      some ⟨["top.ls"], ["top.ls"], []⟩ :=
  claim_C6_amended.1 ⟨some 1, true⟩ depthFs 5 ["b.ltc"] 2
    ⟨["top.ls"], ["top.ls"], []⟩ 1 rfl (by decide) (by decide)

/-! ## Basic lemmas about `setAdd`, `lookupFs` and the state invariant -/

theorem mem_setAdd_self (l : List String) (x : String) : x ∈ setAdd l x := by
  unfold setAdd
  split
  · assumption
  · simp

theorem mem_setAdd_of_mem {l : List String} {x : String} (y : String)
    (h : x ∈ l) : x ∈ setAdd l y := by
  unfold setAdd
  split
  · exact h
  · simp [h]

theorem FPInv_step {st : FPState} {p : String} (h : FPInv st)
    (hp : p ∉ st.processedFiles) :
    FPInv ⟨setAdd st.processedFiles p, setAdd st.fileList p⟩ := by
  obtain ⟨heq, hnd⟩ := h
  have hp' : p ∉ st.fileList := heq ▸ hp
  refine ⟨by simp only [heq], ?_⟩
  simp only [setAdd, if_neg hp']
  refine List.Nodup.append hnd (List.nodup_singleton p) ?_
  intro a ha hap
  simp only [List.mem_singleton] at hap
  subst hap
  exact hp' ha

theorem lookupFs_mem_paths {α : Type} :
    ∀ {fs : List (String × α)} {p : String} {c : α},
      lookupFs fs p = some c → p ∈ fs.map Prod.fst
  | [], p, c, h => by simp [lookupFs] at h
  | (k, v) :: rest, p, c, h => by
    simp only [lookupFs] at h
    by_cases hk : k = p
    · simp [hk]
    · rw [if_neg hk] at h
      simp only [List.map_cons, List.mem_cons]
      exact Or.inr (lookupFs_mem_paths h)

/-! ## Unfolding equations for `parseHierarchyFile` and `parseRefs` -/

theorem parseHierarchyFile_succ (cfg : LConfig) (fs : LFs) (fuel : Nat)
    (p : String) (st : FPState) :
    parseHierarchyFile cfg fs (fuel + 1) p st =
      if p ∈ st.processedFiles then some (st, true)
      else
        match lookupFs fs p with
        | none =>
          some (⟨setAdd st.processedFiles p, setAdd st.fileList p⟩, false)
        | some content =>
          if !(isParsable cfg p) then
            some (⟨setAdd st.processedFiles p, setAdd st.fileList p⟩, true)
          else
            match content with
            | .error _ =>
              some (⟨setAdd st.processedFiles p, setAdd st.fileList p⟩, false)
            | .ok json =>
              parseRefs cfg fs fuel (extractRefs cfg p json)
                ⟨setAdd st.processedFiles p, setAdd st.fileList p⟩ := rfl

theorem parseRefs_nil (cfg : LConfig) (fs : LFs) (fuel : Nat) (st : FPState) :
    parseRefs cfg fs fuel [] st = some (st, true) := rfl

theorem phLoop_none (cfg : LConfig) (fs : LFs) (fuel : Nat) :
    ∀ rs : List String,
      rs.foldl
        (fun acc ref =>
          match acc with
          | none => none
          | some (st', false) => some (st', false)
          | some (st', true) => parseHierarchyFile cfg fs fuel ref st')
        none = none
  | [] => rfl
  | r :: rs => by
    rw [List.foldl_cons]
    exact phLoop_none cfg fs fuel rs

theorem phLoop_err (cfg : LConfig) (fs : LFs) (fuel : Nat) (st0 : FPState) :
    ∀ rs : List String,
      rs.foldl
        (fun acc ref =>
          match acc with
          | none => none
          | some (st', false) => some (st', false)
          | some (st', true) => parseHierarchyFile cfg fs fuel ref st')
        (some (st0, false)) = some (st0, false)
  | [] => rfl
  | r :: rs => by
    rw [List.foldl_cons]
    exact phLoop_err cfg fs fuel st0 rs

theorem parseRefs_cons (cfg : LConfig) (fs : LFs) (fuel : Nat) (r : String)
    (rs : List String) (st : FPState) :
    parseRefs cfg fs fuel (r :: rs) st =
      match parseHierarchyFile cfg fs fuel r st with
      | none => none
      | some (st', false) => some (st', false)
      | some (st', true) => parseRefs cfg fs fuel rs st' := by
  unfold parseRefs
  rw [List.foldl_cons]
  show List.foldl
      (fun acc ref =>
        match acc with
        | none => none
        | some (st', false) => some (st', false)
        | some (st', true) => parseHierarchyFile cfg fs fuel ref st')
      (parseHierarchyFile cfg fs fuel r st) rs = _
  cases h : parseHierarchyFile cfg fs fuel r st with
  | none => exact phLoop_none cfg fs fuel rs
  | some p =>
    obtain ⟨st', b⟩ := p
    cases b with
    | false => exact phLoop_err cfg fs fuel st' rs
    | true => rfl

/-! ## Monotonicity and invariant preservation of the recursion -/

/-- One fuel level of `parseHierarchyFile`/`parseRefs`: the processed set only
grows, and the `FileProcessor` invariant (identical, duplicate-free
`processedFiles` and `fileList`) is preserved. -/
theorem ph_mono_inv (cfg : LConfig) (fs : LFs) : ∀ fuel : Nat,
    (∀ (p : String) (st : FPState) (r : FPState × Bool),
      parseHierarchyFile cfg fs fuel p st = some r →
      (∀ x ∈ st.processedFiles, x ∈ r.1.processedFiles) ∧
      (FPInv st → FPInv r.1)) ∧
    (∀ (rs : List String) (st : FPState) (r : FPState × Bool),
      parseRefs cfg fs fuel rs st = some r →
      (∀ x ∈ st.processedFiles, x ∈ r.1.processedFiles) ∧
      (FPInv st → FPInv r.1)) := by
  intro fuel
  induction fuel with
  | zero =>
    constructor
    · intro p st r h
      exact absurd h (by simp [parseHierarchyFile])
    · intro rs st r h
      cases rs with
      | nil =>
        rw [parseRefs_nil] at h
        obtain rfl : (st, true) = r := by simpa using h
        exact ⟨fun x hx => hx, fun hi => hi⟩
      | cons r0 rs0 =>
        rw [parseRefs_cons] at h
        simp [parseHierarchyFile] at h
  | succ fuel ih =>
    have hph : ∀ (p : String) (st : FPState) (r : FPState × Bool),
        parseHierarchyFile cfg fs (fuel + 1) p st = some r →
        (∀ x ∈ st.processedFiles, x ∈ r.1.processedFiles) ∧
        (FPInv st → FPInv r.1) := by
      intro p st r h
      rw [parseHierarchyFile_succ] at h
      split at h
      next hmem =>
        obtain rfl : (st, true) = r := by simpa using h
        exact ⟨fun x hx => hx, fun hi => hi⟩
      next hmem =>
        split at h
        next hlk =>
          obtain rfl :
              (FPState.mk (setAdd st.processedFiles p) (setAdd st.fileList p),
                false) = r := by simpa using h
          exact ⟨fun x hx => mem_setAdd_of_mem p hx,
            fun hi => FPInv_step hi hmem⟩
        next content hlk =>
          split at h
          next hnp =>
            obtain rfl :
                (FPState.mk (setAdd st.processedFiles p) (setAdd st.fileList p),
                  true) = r := by simpa using h
            exact ⟨fun x hx => mem_setAdd_of_mem p hx,
              fun hi => FPInv_step hi hmem⟩
          next hnp =>
            split at h
            next u =>
              obtain rfl :
                  (FPState.mk (setAdd st.processedFiles p)
                    (setAdd st.fileList p), false) = r := by simpa using h
              exact ⟨fun x hx => mem_setAdd_of_mem p hx,
                fun hi => FPInv_step hi hmem⟩
            next json =>
              have hrec := (ih.2 (extractRefs cfg p json)
                ⟨setAdd st.processedFiles p, setAdd st.fileList p⟩ r h)
              exact ⟨fun x hx => hrec.1 x (mem_setAdd_of_mem p hx),
                fun hi => hrec.2 (FPInv_step hi hmem)⟩
    refine ⟨hph, ?_⟩
    intro rs
    induction rs with
    | nil =>
      intro st r h
      rw [parseRefs_nil] at h
      obtain rfl : (st, true) = r := by simpa using h
      exact ⟨fun x hx => hx, fun hi => hi⟩
    | cons r0 rs0 ihrs =>
      intro st r h
      rw [parseRefs_cons] at h
      cases hph0 : parseHierarchyFile cfg fs (fuel + 1) r0 st with
      | none => rw [hph0] at h; simp at h
      | some q =>
        rw [hph0] at h
        obtain ⟨st', b⟩ := q
        have h0 := hph r0 st (st', b) hph0
        cases b with
        | false =>
          obtain rfl : (st', false) = r := by simpa using h
          exact h0
        | true =>
          have h1 := ihrs st' r h
          exact ⟨fun x hx => h1.1 x (h0.1 x hx), fun hi => h1.2 (h0.2 hi)⟩

/-! ## Termination: enough fuel always exists -/

theorem setAdd_toFinset {l : List String} {p : String} (hp : p ∉ l) :
    (setAdd l p).toFinset = insert p l.toFinset := by
  simp only [setAdd, if_neg hp, List.toFinset_append, List.toFinset_cons,
    List.toFinset_nil, insert_emptyc_eq, Finset.insert_eq, Finset.union_comm]

/-- Registering a not-yet-processed obtainable path strictly shrinks the
unprocessed part of the universe. -/
theorem card_after_setAdd (cfg : LConfig) (fs : LFs) {st : FPState}
    {p : String} (hpU : p ∈ lUniverse cfg fs)
    (hmem : p ∉ st.processedFiles) :
    (lUniverse cfg fs \ (setAdd st.processedFiles p).toFinset).card <
      (lUniverse cfg fs \ st.processedFiles.toFinset).card := by
  rw [setAdd_toFinset hmem, Finset.sdiff_insert]
  have hpmem : p ∈ lUniverse cfg fs \ st.processedFiles.toFinset :=
    Finset.mem_sdiff.mpr ⟨hpU, fun hc => hmem (List.mem_toFinset.mp hc)⟩
  have h1 := Finset.card_erase_of_mem hpmem
  have h2 := Finset.card_pos.mpr ⟨p, hpmem⟩
  omega

/-- A processed-set that only grew leaves no larger an unprocessed part. -/
theorem card_mono_of_processed_mono (cfg : LConfig) (fs : LFs)
    {st st' : FPState}
    (h : ∀ x ∈ st.processedFiles, x ∈ st'.processedFiles) :
    (lUniverse cfg fs \ st'.processedFiles.toFinset).card ≤
      (lUniverse cfg fs \ st.processedFiles.toFinset).card := by
  apply Finset.card_le_card
  apply Finset.sdiff_subset_sdiff (Finset.Subset.refl _)
  intro x hx
  exact List.mem_toFinset.mpr (h x (List.mem_toFinset.mp hx))

/-- With fuel exceeding the number of unprocessed universe members,
`parseHierarchyFile` and `parseRefs` always return. -/
theorem ph_sufficiency (cfg : LConfig) (fs : LFs) : ∀ fuel : Nat,
    (∀ (p : String) (st : FPState),
      (lUniverse cfg fs \ st.processedFiles.toFinset).card < fuel →
      (parseHierarchyFile cfg fs fuel p st).isSome) ∧
    (∀ (rs : List String) (st : FPState),
      (lUniverse cfg fs \ st.processedFiles.toFinset).card < fuel →
      (parseRefs cfg fs fuel rs st).isSome) := by
  intro fuel
  induction fuel with
  | zero =>
    exact ⟨fun p st h => absurd h (by omega),
      fun rs st h => absurd h (by omega)⟩
  | succ fuel ih =>
    have hph : ∀ (p : String) (st : FPState),
        (lUniverse cfg fs \ st.processedFiles.toFinset).card < fuel + 1 →
        (parseHierarchyFile cfg fs (fuel + 1) p st).isSome := by
      intro p st hcard
      rw [parseHierarchyFile_succ]
      split
      · simp
      next hmem =>
        cases hlk : lookupFs fs p with
        | none => simp
        | some content =>
          show (if !(isParsable cfg p) then
              some (⟨setAdd st.processedFiles p, setAdd st.fileList p⟩, true)
            else
              match content with
              | .error _ =>
                some (⟨setAdd st.processedFiles p, setAdd st.fileList p⟩,
                  false)
              | .ok json =>
                parseRefs cfg fs fuel (extractRefs cfg p json)
                  ⟨setAdd st.processedFiles p,
                    setAdd st.fileList p⟩).isSome
          split
          · simp
          cases content with
          | error u => simp
          | ok json =>
            apply ih.2
            have hpU : p ∈ lUniverse cfg fs :=
              Finset.mem_union_left _
                (List.mem_toFinset.mpr (lookupFs_mem_paths hlk))
            have hlt := card_after_setAdd cfg fs hpU hmem
            show (lUniverse cfg fs \
              (setAdd st.processedFiles p).toFinset).card < fuel
            omega
    refine ⟨hph, ?_⟩
    intro rs
    induction rs with
    | nil =>
      intro st hcard
      rw [parseRefs_nil]
      simp
    | cons r0 rs0 ihrs =>
      intro st hcard
      rw [parseRefs_cons]
      cases hph0 : parseHierarchyFile cfg fs (fuel + 1) r0 st with
      | none =>
        have := hph r0 st hcard
        rw [hph0] at this
        simp at this
      | some q =>
        obtain ⟨st', b⟩ := q
        cases b with
        | false => simp
        | true =>
          apply ihrs
          have hmono := (ph_mono_inv cfg fs (fuel + 1)).1 r0 st (st', true) hph0
          have hle : (lUniverse cfg fs \ st'.processedFiles.toFinset).card ≤
              (lUniverse cfg fs \ st.processedFiles.toFinset).card :=
            card_mono_of_processed_mono cfg fs hmono.1
          omega

/-! ## Stability: the result does not change once the fuel suffices -/

theorem ph_stable (cfg : LConfig) (fs : LFs) : ∀ fuel : Nat,
    (∀ (p : String) (st : FPState) (r : FPState × Bool),
      parseHierarchyFile cfg fs fuel p st = some r →
      parseHierarchyFile cfg fs (fuel + 1) p st = some r) ∧
    (∀ (rs : List String) (st : FPState) (r : FPState × Bool),
      parseRefs cfg fs fuel rs st = some r →
      parseRefs cfg fs (fuel + 1) rs st = some r) := by
  intro fuel
  induction fuel with
  | zero =>
    refine ⟨?_, ?_⟩
    · intro p st r h
      exact absurd h (by simp [parseHierarchyFile])
    · intro rs st r h
      cases rs with
      | nil =>
        rw [parseRefs_nil] at h ⊢
        exact h
      | cons r0 rs0 =>
        rw [parseRefs_cons] at h
        simp [parseHierarchyFile] at h
  | succ fuel ih =>
    have hph : ∀ (p : String) (st : FPState) (r : FPState × Bool),
        parseHierarchyFile cfg fs (fuel + 1) p st = some r →
        parseHierarchyFile cfg fs (fuel + 1 + 1) p st = some r := by
      intro p st r h
      rw [parseHierarchyFile_succ] at h
      rw [parseHierarchyFile_succ]
      split at h
      next hmem =>
        rw [if_pos hmem]
        exact h
      next hmem =>
        rw [if_neg hmem]
        split at h
        next hlk => exact h
        next content hlk =>
          split at h
          next hnp =>
            rw [if_pos hnp]
            exact h
          next hnp =>
            rw [if_neg hnp]
            split at h
            next u => exact h
            next json => exact ih.2 _ _ _ h
    refine ⟨hph, ?_⟩
    intro rs
    induction rs with
    | nil =>
      intro st r h
      rw [parseRefs_nil] at h ⊢
      exact h
    | cons r0 rs0 ihrs =>
      intro st r h
      rw [parseRefs_cons] at h
      rw [parseRefs_cons]
      cases hph0 : parseHierarchyFile cfg fs (fuel + 1) r0 st with
      | none =>
        rw [hph0] at h
        simp at h
      | some q =>
        rw [hph0] at h
        obtain ⟨st', b⟩ := q
        rw [hph r0 st (st', b) hph0]
        cases b with
        | false => exact h
        | true => exact ihrs st' r h

/-! ## Lifting to the entry loop and `resolve` -/

theorem parseEntries_mono_inv (cfg : LConfig) (fs : LFs) (fuel : Nat) :
    ∀ (es : List String) (st : FPState) (r : FPState × Bool),
      parseEntries cfg fs fuel es st = some r →
      (∀ x ∈ st.processedFiles, x ∈ r.1.processedFiles) ∧
      (FPInv st → FPInv r.1)
  | [], st, r, h => by
    simp only [parseEntries, Option.some.injEq] at h
    subst h
    exact ⟨fun x hx => hx, fun hi => hi⟩
  | e :: es, st, r, h => by
    simp only [parseEntries] at h
    cases hph : parseHierarchyFile cfg fs fuel e st with
    | none => rw [hph] at h; simp at h
    | some q =>
      obtain ⟨st', ok⟩ := q
      simp only [hph] at h
      cases hrec : parseEntries cfg fs fuel es st' with
      | none => rw [hrec] at h; simp at h
      | some q2 =>
        obtain ⟨st'', ok'⟩ := q2
        simp only [hrec] at h
        obtain rfl : (st'', ok && ok') = r := by simpa using h
        have h1 := (ph_mono_inv cfg fs fuel).1 e st (st', ok) hph
        have h2 := parseEntries_mono_inv cfg fs fuel es st' (st'', ok') hrec
        exact ⟨fun x hx => h2.1 x (h1.1 x hx), fun hi => h2.2 (h1.2 hi)⟩

theorem parseEntries_suff (cfg : LConfig) (fs : LFs) (fuel : Nat) :
    ∀ (es : List String) (st : FPState),
      (lUniverse cfg fs \ st.processedFiles.toFinset).card < fuel →
      (parseEntries cfg fs fuel es st).isSome
  | [], st, hcard => by simp [parseEntries]
  | e :: es, st, hcard => by
    simp only [parseEntries]
    cases hph : parseHierarchyFile cfg fs fuel e st with
    | none =>
      have := (ph_sufficiency cfg fs fuel).1 e st hcard
      rw [hph] at this
      simp at this
    | some q =>
      obtain ⟨st', ok⟩ := q
      have hmono := (ph_mono_inv cfg fs fuel).1 e st (st', ok) hph
      have hle : (lUniverse cfg fs \ st'.processedFiles.toFinset).card ≤
          (lUniverse cfg fs \ st.processedFiles.toFinset).card :=
        card_mono_of_processed_mono cfg fs hmono.1
      have hrec := parseEntries_suff cfg fs fuel es st' (by omega)
      cases hrec2 : parseEntries cfg fs fuel es st' with
      | none => rw [hrec2] at hrec; simp at hrec
      | some q2 => simp [hrec2]

theorem parseEntries_stable (cfg : LConfig) (fs : LFs) (fuel : Nat) :
    ∀ (es : List String) (st : FPState) (r : FPState × Bool),
      parseEntries cfg fs fuel es st = some r →
      parseEntries cfg fs (fuel + 1) es st = some r
  | [], st, r, h => h
  | e :: es, st, r, h => by
    simp only [parseEntries] at h ⊢
    cases hph : parseHierarchyFile cfg fs fuel e st with
    | none => rw [hph] at h; simp at h
    | some q =>
      obtain ⟨st', ok⟩ := q
      simp only [hph] at h
      simp only [(ph_stable cfg fs fuel).1 e st (st', ok) hph]
      cases hrec : parseEntries cfg fs fuel es st' with
      | none => rw [hrec] at h; simp at h
      | some q2 =>
        simp only [hrec] at h
        simp only [parseEntries_stable cfg fs fuel es st' q2 hrec]
        exact h

theorem parseEntries_le (cfg : LConfig) (fs : LFs) {fuel fuel' : Nat}
    (hle : fuel ≤ fuel') :
    ∀ (es : List String) (st : FPState) (r : FPState × Bool),
      parseEntries cfg fs fuel es st = some r →
      parseEntries cfg fs fuel' es st = some r := by
  intro es st r h
  obtain ⟨k, rfl⟩ : ∃ k, fuel' = fuel + k := ⟨fuel' - fuel, by omega⟩
  clear hle
  induction k with
  | zero => exact h
  | succ k ih => exact parseEntries_stable cfg fs (fuel + k) es st r ih

/-! ## Claim C3 -/

/-- Claim C3: `resolve()` terminates on every finite asset world - there is a
fuel bound past which the result exists and never changes again; the final
file list contains every path at most once no matter how many references
point to it (the `processedFiles` guard admits each path a single time); and
on the concrete two-member cycle `sub/A.ls <-> sub/B.ls` the run completes
with file list exactly `[sub/A.ls, sub/B.ls]` and the success flag set - no
error arises from the cycle. -/
theorem claim_C3_theorem :
    (∀ (cfg : LConfig) (fs : LFs) (entries : List String),
        ∃ (N : Nat) (r : FPState × Bool), ∀ fuel, N ≤ fuel →
          resolve cfg fs entries fuel = some r) ∧
    (∀ (cfg : LConfig) (fs : LFs) (entries : List String) (fuel : Nat)
        (st : FPState) (ok : Bool),
        resolve cfg fs entries fuel = some (st, ok) → st.fileList.Nodup) ∧
    resolve defaultLConfig cycleFs ["sub/A.ls"] 10 =
      some (⟨["sub/A.ls", "sub/B.ls"], ["sub/A.ls", "sub/B.ls"]⟩, true) := by
  refine ⟨?_, ?_, by decide⟩
  · intro cfg fs entries
    refine ⟨(lUniverse cfg fs).card + 1, ?_⟩
    have hcard :
        (lUniverse cfg fs \ (⟨[], []⟩ : FPState).processedFiles.toFinset).card <
          (lUniverse cfg fs).card + 1 := by
      have : (lUniverse cfg fs \
          (⟨[], []⟩ : FPState).processedFiles.toFinset).card ≤
          (lUniverse cfg fs).card :=
        Finset.card_le_card (Finset.sdiff_subset)
      omega
    have hsome := parseEntries_suff cfg fs ((lUniverse cfg fs).card + 1)
      entries ⟨[], []⟩ hcard
    obtain ⟨r, hr⟩ := Option.isSome_iff_exists.mp hsome
    exact ⟨r, fun fuel hfuel => parseEntries_le cfg fs hfuel entries ⟨[], []⟩ r hr⟩
  · intro cfg fs entries fuel st ok h
    have hinv := (parseEntries_mono_inv cfg fs fuel entries ⟨[], []⟩ (st, ok) h).2
      ⟨rfl, List.nodup_nil⟩
    exact hinv.2

/-- Claim C3, witness: the dedup part applied to the concrete cycle run. -/
theorem claim_C3_witness :
    resolve defaultLConfig cycleFs ["sub/A.ls"] 10 =
      some (⟨["sub/A.ls", "sub/B.ls"], ["sub/A.ls", "sub/B.ls"]⟩, true) ∧
    (["sub/A.ls", "sub/B.ls"] : List String).Nodup :=
  ⟨by decide,
   claim_C3_theorem.2.1 defaultLConfig cycleFs ["sub/A.ls"] 10
     ⟨["sub/A.ls", "sub/B.ls"], ["sub/A.ls", "sub/B.ls"]⟩ true (by decide)⟩

/-! ## Claim C10 -/

/-- Claim C10: the `FileProcessor` invariant - `parseHierarchyFile` inserts a
path into `processedFiles` and `fileList` together, before any I/O on that
path, so after any run the two collections are identical (and in particular
`getProcessedFiles()` and `getFileList()` return the same set of paths). -/
theorem claim_C10_theorem :
    ∀ (cfg : LConfig) (fs : LFs) (entries : List String) (fuel : Nat)
      (st : FPState) (ok : Bool),
      resolve cfg fs entries fuel = some (st, ok) →
      st.processedFiles = st.fileList := by
  intro cfg fs entries fuel st ok h
  exact ((parseEntries_mono_inv cfg fs fuel entries ⟨[], []⟩ (st, ok) h).2
    ⟨rfl, List.nodup_nil⟩).1

/-- Claim C10, witness: the invariant applied to a concrete two-entry run. -/
theorem claim_C10_witness :
    resolve defaultLConfig whitespaceFs ["a b.ls", "a_b.ls"] 10 =
      some (⟨["a b.ls", "a_b.ls"], ["a b.ls", "a_b.ls"]⟩, true) ∧
    (["a b.ls", "a_b.ls"] : List String) = ["a b.ls", "a_b.ls"] :=
  ⟨by decide,
   claim_C10_theorem defaultLConfig whitespaceFs ["a b.ls", "a_b.ls"] 10
     ⟨["a b.ls", "a_b.ls"], ["a b.ls", "a_b.ls"]⟩ true (by decide)⟩

/-! ## Claim C8: DownloadManager coalescing -/

theorem DMInv_init : DMInv DMState.init := by
  intro p
  simp [DMInv, DMState.init]

theorem DMInv_step {s s' : DMState} {e : DMEvent} (hinv : DMInv s)
    (hstep : DMStep s e s') : DMInv s' := by
  cases hstep with
  | startCached _ => exact hinv
  | startCoalesced _ _ => exact hinv
  | startNew hc hq =>
    rename_i p
    intro q
    show Multiset.count q (p ::ₘ s.tasks) ≤
      if q ∈ insert p s.inflight then 1 else 0
    rw [Multiset.count_cons]
    by_cases hqp : q = p
    · subst hqp
      have h0 := hinv q
      rw [if_neg hq] at h0
      rw [if_pos rfl, if_pos (Finset.mem_insert_self q s.inflight)]
      omega
    · have h0 := hinv q
      rw [if_neg hqp]
      by_cases hqi : q ∈ s.inflight
      · rw [if_pos (Finset.mem_insert_of_mem hqi)]
        rw [if_pos hqi] at h0
        omega
      · rw [if_neg (fun hc => (Finset.mem_insert.mp hc).elim hqp hqi)]
        rw [if_neg hqi] at h0
        omega
  | finishOk ht =>
    rename_i p
    intro q
    show Multiset.count q (s.tasks.erase p) ≤
      if q ∈ s.inflight.erase p then 1 else 0
    by_cases hqp : q = p
    · subst hqp
      have h0 := hinv q
      rw [Multiset.count_erase_self, if_neg (Finset.not_mem_erase q s.inflight)]
      have hle : Multiset.count q s.tasks ≤ 1 :=
        le_trans h0 (by split <;> omega)
      omega
    · have h0 := hinv q
      rw [Multiset.count_erase_of_ne hqp]
      by_cases hqi : q ∈ s.inflight
      · rw [if_pos (Finset.mem_erase.mpr ⟨hqp, hqi⟩)]
        rw [if_pos hqi] at h0
        omega
      · rw [if_neg (fun hc => hqi (Finset.mem_erase.mp hc).2)]
        rw [if_neg hqi] at h0
        omega
  | finishErr ht =>
    rename_i p
    intro q
    show Multiset.count q (s.tasks.erase p) ≤
      if q ∈ s.inflight.erase p then 1 else 0
    by_cases hqp : q = p
    · subst hqp
      have h0 := hinv q
      rw [Multiset.count_erase_self, if_neg (Finset.not_mem_erase q s.inflight)]
      have hle : Multiset.count q s.tasks ≤ 1 :=
        le_trans h0 (by split <;> omega)
      omega
    · have h0 := hinv q
      rw [Multiset.count_erase_of_ne hqp]
      by_cases hqi : q ∈ s.inflight
      · rw [if_pos (Finset.mem_erase.mpr ⟨hqp, hqi⟩)]
        rw [if_pos hqi] at h0
        omega
      · rw [if_neg (fun hc => hqi (Finset.mem_erase.mp hc).2)]
        rw [if_neg hqi] at h0
        omega

theorem DMReachable_inv {s : DMState} (h : DMReachable s) : DMInv s := by
  induction h with
  | refl => exact DMInv_init
  | tail _ hstep ih =>
    obtain ⟨e, he⟩ := hstep
    exact DMInv_step ih he

/-- Claim C8: in every state the `DownloadManager` can reach, any path has at
most one active download task (hence at most one outstanding network request,
as retries within a task are sequential); and a `downloadFile(p)` arriving
while `p` is already in the `downloadQueue` leaves the state untouched - it
awaits the queued promise instead of spawning a second task, because the
queue check and the queue insertion sit in one synchronous section. -/
theorem claim_C8_theorem :
    (∀ s : DMState, DMReachable s → ∀ p, s.tasks.count p ≤ 1) ∧
    (∀ (s s' : DMState) (p : String),
        DMStep s (.start p) s' → p ∈ s.inflight → s' = s) := by
  constructor
  · intro s hs p
    have h := DMReachable_inv hs p
    exact le_trans h (by split <;> omega)
  · intro s s' p hstep hin
    cases hstep with
    | startCached _ => rfl
    | startCoalesced _ _ => rfl
    | startNew hc hq => exact absurd hin hq

/-- Claim C8, witness: the bound applied to the initial state, and the
coalescing conjunct applied to a concrete state with `"a"` in flight. -/
theorem claim_C8_witness :
    DMReachable DMState.init ∧
    Multiset.count "a" DMState.init.tasks ≤ 1 ∧
    (⟨∅, {"a"}, {"a"}⟩ : DMState) = ⟨∅, {"a"}, {"a"}⟩ :=
  ⟨Relation.ReflTransGen.refl,
   claim_C8_theorem.1 DMState.init Relation.ReflTransGen.refl "a",
   claim_C8_theorem.2 ⟨∅, {"a"}, {"a"}⟩ ⟨∅, {"a"}, {"a"}⟩ "a"
     (DMStep.startCoalesced (by simp) (by simp)) (by simp)⟩

end Laya
